import Mathlib

/-!
Verification of `src/huffman.py` (Huffman encoding/decoding).

The Python source is shallowly embedded: strings become `List Char`,
Python dicts become association lists with Python's insertion semantics,
the `heapq` module's `heappush`/`heappop` (binary-heap sift operations on a
list, comparing `TreeNode`s by `freq` as `__lt__` does) are transcribed
directly, and `while` loops become fueled recursion where the fuel chosen at
each call site dominates the loop's iteration count, so exhausting fuel is
unreachable for the actual calls.  Operations that can raise in Python
(`heappop` of an empty list, `KeyError`, `int()` of a bad string, a failing
`assert`, a non-terminating loop) return `none`.
-/

/-- Python `TreeNode` (src/huffman.py lines 10-27): letter, freq and optional
left/right children.  The mutable `encoding` field is dropped; `tree_dfs`
returns the (letter, encoding) pairs it appends to `leaves` instead of
mutating nodes. -/
inductive TreeNode : Type where
  | node (letter : List Char) (freq : Nat) (left : Option TreeNode) (right : Option TreeNode)

/-- Letter held by a node. -/
def TreeNode.letter : TreeNode → List Char
  | .node l _ _ _ => l

/-- Frequency held by a node. -/
def TreeNode.freq : TreeNode → Nat
  | .node _ f _ _ => f

/-- Left child of a node. -/
def TreeNode.left : TreeNode → Option TreeNode
  | .node _ _ l _ => l

/-- Right child of a node. -/
def TreeNode.right : TreeNode → Option TreeNode
  | .node _ _ _ r => r

/-- Default node used with `List.getD` (list indexing never goes out of
bounds at the actual call sites). -/
def dNode : TreeNode := .node [] 0 none none

/-- Size of a tree (number of `TreeNode`s in it), used as a depth bound. -/
def treeSize : TreeNode → Nat
  | .node _ _ none none => 1
  | .node _ _ none (some r) => 1 + treeSize r
  | .node _ _ (some l) none => 1 + treeSize l
  | .node _ _ (some l) (some r) => 1 + treeSize l + treeSize r

/-- `tree_dfs` (src/huffman.py lines 30-49) on a non-`None` node: traverse
right with `curstr + "1"` first, then left with `curstr + "0"`, appending
`(letter, encoding)` to `leaves` at each leaf. -/
def tree_dfs_go : TreeNode → List Char → List (List Char × List Char) → List (List Char × List Char)
  | .node letter _ left right, curstr, leaves =>
    if right.isNone && left.isNone then
      leaves ++ [(letter, curstr)]
    else
      let leaves1 := match right with
        | some r => tree_dfs_go r (curstr ++ ['1']) leaves
        | none => leaves
      match left with
        | some l => tree_dfs_go l (curstr ++ ['0']) leaves1
        | none => leaves1

/-- `tree_dfs` on an `Option TreeNode` (the Python function also accepts
`None`, returning immediately). -/
def tree_dfs (node : Option TreeNode) (curstr : List Char) (leaves : List (List Char × List Char)) : List (List Char × List Char) :=
  match node with
  | none => leaves
  | some n => tree_dfs_go n curstr leaves

/-- CPython `heapq._siftdown` inner `while` loop together with the final
`heap[pos] = newitem` write.  The loop moves `pos` to `(pos - 1) // 2` each
iteration, so the initial `pos` bounds the iteration count and is used as
fuel at the call sites; the fuel-exhausted base performs the terminal write. -/
def siftdownAux : List TreeNode → Nat → Nat → TreeNode → Nat → List TreeNode
  | heap, _, pos, newitem, 0 => heap.set pos newitem
  | heap, startpos, pos, newitem, fuel + 1 =>
    if startpos < pos then
      let parentpos := (pos - 1) / 2
      let parent := heap.getD parentpos dNode
      if newitem.freq < parent.freq then
        siftdownAux (heap.set pos parent) startpos parentpos newitem fuel
      else heap.set pos newitem
    else heap.set pos newitem

/-- CPython `heapq._siftdown(heap, startpos, pos)`: `newitem = heap[pos]`,
then the loop. `TreeNode.__lt__` compares `freq`. -/
def siftdown (heap : List TreeNode) (startpos pos : Nat) : List TreeNode :=
  siftdownAux heap startpos pos (heap.getD pos dNode) pos

/-- CPython `heapq.heappush`: `heap.append(item); _siftdown(heap, 0, len(heap)-1)`. -/
def heappush (heap : List TreeNode) (item : TreeNode) : List TreeNode :=
  siftdown (heap ++ [item]) 0 heap.length

/-- CPython `heapq._siftup` `while childpos < endpos` loop, which moves the
smaller child up into the hole at `pos` and descends.  `pos` strictly
increases below `len(heap)`, so `len(heap)` bounds the iteration count and is
the fuel at the call site. -/
def siftupLoop : List TreeNode → Nat → Nat → List TreeNode × Nat
  | heap, pos, 0 => (heap, pos)
  | heap, pos, fuel + 1 =>
    let endpos := heap.length
    let childpos := 2 * pos + 1
    if childpos < endpos then
      let rightpos := childpos + 1
      let childpos :=
        if rightpos < endpos ∧ ¬ (heap.getD childpos dNode).freq < (heap.getD rightpos dNode).freq
        then rightpos else childpos
      siftupLoop (heap.set pos (heap.getD childpos dNode)) childpos fuel
    else (heap, pos)

/-- CPython `heapq._siftup(heap, pos)`: capture `newitem = heap[pos]`, run the
descend loop, write `newitem` into the final hole, then `_siftdown`. -/
def siftup (heap : List TreeNode) (pos : Nat) : List TreeNode :=
  let newitem := heap.getD pos dNode
  let startpos := pos
  let hp := siftupLoop heap pos heap.length
  siftdown (hp.1.set hp.2 newitem) startpos hp.2

/-- CPython `heapq.heappop`: pop the last element; if the heap is still
non-empty, return `heap[0]` after moving the last element into slot 0 and
sifting it up.  Popping an empty list raises `IndexError`, modelled as
`none`. -/
def heappop : List TreeNode → Option (TreeNode × List TreeNode)
  | [] => none
  | x :: xs =>
    let lastelt := (x :: xs).getLastD dNode
    let rest := (x :: xs).dropLast
    if rest.isEmpty then some (lastelt, [])
    else some (rest.getD 0 dNode, siftup (rest.set 0 lastelt) 0)

/-- Python `dict` lookup `d[key]` on an association list, `none` for a missing
key (`KeyError`); also decides `key in d`. -/
def pylookup {κ β : Type} [DecidableEq κ] : List (κ × β) → κ → Option β
  | [], _ => none
  | (k, v) :: rest, key => if k = key then some v else pylookup rest key

/-- Python `dict` assignment `d[key] = val`: replace in place if the key
exists, otherwise append (insertion order). -/
def pyinsert {κ β : Type} [DecidableEq κ] : List (κ × β) → κ → β → List (κ × β)
  | [], key, val => [(key, val)]
  | (k, v) :: rest, key, val =>
    if k = key then (k, val) :: rest else (k, v) :: pyinsert rest key val

/-- Python dict comprehension `{v: k for k, v in d.items()}`. -/
def pyinvert {κ β : Type} [DecidableEq κ] [DecidableEq β] (d : List (κ × β)) : List (β × κ) :=
  d.foldl (fun acc p => pyinsert acc p.2 p.1) []

/-- One step of `make_dict` (src/huffman.py lines 61-69): `freq_dict[char] += 1`
on a `defaultdict(int)`. -/
def bump : List (Char × Nat) → Char → List (Char × Nat)
  | [], c => [(c, 1)]
  | (k, v) :: rest, c => if k = c then (k, v + 1) :: rest else (k, v) :: bump rest c

/-- `make_dict` (src/huffman.py lines 61-69): character frequency table in
first-occurrence order. -/
def make_dict (data : List Char) : List (Char × Nat) := data.foldl bump []

/-- The `while True` merge loop of `encode` (src/huffman.py lines 99-107):
pop two nodes, build the parent, stop when `parent_node.freq == len(s)`,
else push the parent back.  The heap shrinks by one per iteration, so the
initial heap length is enough fuel to reach either the `break` or the
`IndexError` (modelled `none`) of a failing `heappop`. -/
def buildLoop : List TreeNode → Nat → Nat → Option TreeNode
  | _, _, 0 => none
  | heap, lenS, fuel + 1 =>
    match heappop heap with
    | none => none
    | some (node1, h1) =>
      match heappop h1 with
      | none => none
      | some (node2, h2) =>
        let parent := TreeNode.node (node1.letter ++ node2.letter)
          (node1.freq + node2.freq) (some node1) (some node2)
        if parent.freq = lenS then some parent
        else buildLoop (heappush h2 parent) lenS fuel

/-- The heap of leaf nodes built from `make_dict` by `encode`
(src/huffman.py lines 91-93): `heappush(minheap, TreeNode(k, v))` over
`freqs.items()` in insertion order (`str(k)` is the one-character string). -/
def initialHeap (s : List Char) : List TreeNode :=
  (make_dict s).foldl (fun h p => heappush h (TreeNode.node [p.1] p.2 none none)) []

/-- Steps 1-2 of `encode`: the Huffman tree root produced by the merge loop. -/
def buildRoot (s : List Char) : Option TreeNode :=
  buildLoop (initialHeap s) s.length (initialHeap s).length

/-- The `encoding_to_char` loop of `encode` (src/huffman.py lines 114-118)
with its two `assert`s (leaf letter is a single character, no duplicate
encoding); a failing `assert` is `none`. -/
def buildE2C : List (List Char × List Char) → List (List Char × List Char) → Option (List (List Char × List Char))
  | [], acc => some acc
  | (letter, enc) :: rest, acc =>
    if letter.length = 1 then
      if (pylookup acc enc).isNone then buildE2C rest (acc ++ [(enc, letter)])
      else none
    else none

/-- `"".join([char_to_encoding[char] for char in s])` (src/huffman.py
line 124); a missing key (`KeyError`) is `none`. -/
def concatCodes : List Char → List (List Char × List Char) → Option (List Char)
  | [], _ => some []
  | c :: rest, d =>
    match pylookup d [c] with
    | none => none
    | some code =>
      match concatCodes rest d with
      | none => none
      | some tl => some (code ++ tl)

/-- Digit-producing loop of Python `bin(n)[2:]` for `n > 0` (most significant
first); `n` halves each iteration, so `n` itself is enough fuel. -/
def binDigitsAux : Nat → List Char → Nat → List Char
  | _, acc, 0 => acc
  | n, acc, fuel + 1 =>
    if n = 0 then acc
    else binDigitsAux (n / 2) ((if n % 2 = 1 then '1' else '0') :: acc) fuel

/-- Python `bin(n)[2:]` (`bin(0)[2:] = "0"`). -/
def binDigits (n : Nat) : List Char := if n = 0 then ['0'] else binDigitsAux n [] n

/-- Lower-case hexadecimal digit for a value below 16. -/
def hexDigitChar (n : Nat) : Char := if n < 10 then Char.ofNat (48 + n) else Char.ofNat (87 + n)

/-- Digit-producing loop of Python `hex(n)` for `n > 0`. -/
def hexDigitsAux : Nat → List Char → Nat → List Char
  | _, acc, 0 => acc
  | n, acc, fuel + 1 =>
    if n = 0 then acc
    else hexDigitsAux (n / 16) (hexDigitChar (n % 16) :: acc) fuel

/-- Python `hex(n)`: `"0x"` then lower-case hex digits. -/
def pyhex (n : Nat) : List Char := '0' :: 'x' :: (if n = 0 then ['0'] else hexDigitsAux n [] n)

/-- Digit fold of Python `int(x, 2)`; a non-binary character raises
`ValueError`, modelled `none`. -/
def parseBinAux : List Char → Nat → Option Nat
  | [], acc => some acc
  | c :: rest, acc =>
    if c = '0' then parseBinAux rest (2 * acc)
    else if c = '1' then parseBinAux rest (2 * acc + 1)
    else none

/-- Python `int(x, 2)` on the digit strings produced here (`int("", 2)`
raises, modelled `none`). -/
def parseBin (l : List Char) : Option Nat := if l.isEmpty then none else parseBinAux l 0

/-- Value of one hexadecimal character (digits and lower-case letters). -/
def hexVal (c : Char) : Option Nat :=
  if '0' ≤ c ∧ c ≤ '9' then some (c.toNat - 48)
  else if 'a' ≤ c ∧ c ≤ 'f' then some (c.toNat - 87)
  else none

/-- Digit fold of Python `int(x, 16)`. -/
def parseHexAux : List Char → Nat → Option Nat
  | [], acc => some acc
  | c :: rest, acc =>
    match hexVal c with
    | some v => parseHexAux rest (16 * acc + v)
    | none => none

/-- Python `int(x, 16)` on the strings produced by `hex`: an optional `"0x"`
followed by at least one hex digit. -/
def parseHexOpt (l : List Char) : Option Nat :=
  match l with
  | '0' :: 'x' :: rest => if rest.isEmpty then none else parseHexAux rest 0
  | _ => if l.isEmpty then none else parseHexAux l 0

/-- The `num_zeros_to_add` loop of `encode` (src/huffman.py lines 129-133):
prepend `'0'` until the rebuilt binary string equals `int_str`.  Once the
candidate is longer than the target, equality is impossible, so
`len(int_str) + 1` fuel covers every terminating run; fuel running out
models the loop never terminating. -/
def padCount : List Char → List Char → Nat → Option Nat
  | b, target, 0 => if b = target then some 0 else none
  | b, target, fuel + 1 =>
    if b = target then some 0
    else (padCount ('0' :: b) target fuel).map (· + 1)

/-- Python slice `l[i:j]`. -/
def pyslice (l : List Char) (i j : Nat) : List Char := (l.drop i).take (j - i)

/-- Inner scan loop of `decode` (src/huffman.py lines 170-172):
`while j < len(bin_str) and bin_str[i:j] not in encoding_to_char.keys(): j += 1`.
`j` strictly increases and stays at most `len(bin_str)`, so `len(bin_str)`
fuel suffices from any start `j ≥ 1`. -/
def scanJ (bin : List Char) (e2c : List (List Char × List Char)) (i : Nat) : Nat → Nat → Nat
  | j, 0 => j
  | j, fuel + 1 =>
    if j < bin.length ∧ (pylookup e2c (pyslice bin i j)).isNone then
      scanJ bin e2c i (j + 1) fuel
    else j

/-- Outer scan loop of `decode` (src/huffman.py lines 168-176): run the inner
scan from `i + 1`, `break` when `j >= len(bin_str)`, otherwise emit the
matched character and continue at `i = j`.  `i` strictly increases, so
`len(bin_str) + 1` fuel suffices; a `KeyError` (unreachable here) is `none`. -/
def scanOuter (bin : List Char) (e2c : List (List Char × List Char)) : Nat → List Char → Nat → Option (List Char)
  | _, _, 0 => none
  | i, original, fuel + 1 =>
    if i < bin.length then
      let j := scanJ bin e2c i (i + 1) bin.length
      if bin.length ≤ j then some original
      else
        match pylookup e2c (pyslice bin i j) with
        | some letter => scanOuter bin e2c j (original ++ letter) fuel
        | none => none
    else some original

/-- `encode` (src/huffman.py lines 71-150) without its file I/O: from the
input string to the pickled triple `(hex_str, char_to_encoding,
num_zeros_to_add)`.  Any Python exception along the way (heap underflow in
the merge loop, failed `assert`, `KeyError`, `ValueError`) is `none`. -/
def encode_core (s : List Char) : Option (List Char × List (List Char × List Char) × Nat) :=
  match buildRoot s with
  | none => none
  | some root =>
    match buildE2C (tree_dfs (some root) [] []) [] with
    | none => none
    | some e2c =>
      let c2e := pyinvert e2c
      match concatCodes s c2e with
      | none => none
      | some int_str =>
        match parseBin int_str with
        | none => none
        | some n =>
          let hex_str := pyhex n
          match parseHexOpt hex_str with
          | none => none
          | some n2 =>
            match padCount (binDigits n2) int_str (int_str.length + 1) with
            | none => none
            | some num_zeros => some (hex_str, c2e, num_zeros)

/-- `decode` (src/huffman.py lines 152-176) without its file I/O: from the
pickled triple to the `original` string accumulated by the scan loop (the
file written afterwards is `original` plus a trailing newline). -/
def decode_core (hex_str : List Char) (char_to_encoding : List (List Char × List Char)) (num_zeros : Nat) : Option (List Char) :=
  match parseHexOpt hex_str with
  | none => none
  | some n =>
    let bin_str := List.replicate num_zeros '0' ++ binDigits n
    let encoding_to_char := pyinvert char_to_encoding
    scanOuter bin_str encoding_to_char 0 [] (bin_str.length + 1)

/-- Modelled from the spec (§4.2, §9): the merge loop with the alternative
termination rule "repeat … until exactly one node remains in the queue; that
node is the root".  For refinement claim C6 this is compared against
`buildLoop`, whose exit test is the source's `parent_node.freq == len(s)`. -/
def buildLoopSpec : Nat → List TreeNode → Option TreeNode
  | 0, _ => none
  | fuel + 1, heap =>
    if heap.length = 1 then (heappop heap).map (fun p => p.1)
    else
      match heappop heap with
      | none => none
      | some (node1, h1) =>
        match heappop h1 with
        | none => none
        | some (node2, h2) =>
          let parent := TreeNode.node (node1.letter ++ node2.letter)
            (node1.freq + node2.freq) (some node1) (some node2)
          buildLoopSpec fuel (heappush h2 parent)

/-- The `(letter, encoding)` pairs `tree_dfs` appends for one subtree, in
traversal order (right subtree first). -/
def dfsList : TreeNode → List Char → List (List Char × List Char)
  | .node letter _ none none, cur => [(letter, cur)]
  | .node _ _ (some l) (some r), cur => dfsList r (cur ++ ['1']) ++ dfsList l (cur ++ ['0'])
  | .node _ _ none (some r), cur => dfsList r (cur ++ ['1'])
  | .node _ _ (some l) none, cur => dfsList l (cur ++ ['0'])

/-- Well-formedness of the trees the merge loop manipulates: a leaf holds a
single character and a positive count; an internal node has both children,
the sum of their counts, and the concatenation of their letters. -/
def goodT : TreeNode → Prop
  | .node letter freq none none => letter.length = 1 ∧ 1 ≤ freq
  | .node letter freq (some l) (some r) =>
      goodT l ∧ goodT r ∧ freq = l.freq + r.freq ∧ letter = l.letter ++ r.letter
  | _ => False

/-- Every internal node's frequency is the sum of its two children's
frequencies (the invariant named in claim C8). -/
def freqSums : TreeNode → Bool
  | .node _ _ none none => true
  | .node _ freq (some l) (some r) => (freq == l.freq + r.freq) && freqSums l && freqSums r
  | _ => false

/-- The property of the inverted code book (`encoding_to_char`) used in the
decode-scan lemmas: keys are non-empty and pairwise prefix-free. -/
def goodBook (e2c : List (List Char × List Char)) : Prop :=
  (∀ k ∈ e2c.map Prod.fst, k ≠ []) ∧
    ((e2c.map Prod.fst).Pairwise fun a b => ¬ a <+: b ∧ ¬ b <+: a)

/-! ### Basic projection lemmas -/

@[simp] theorem TreeNode.letter_mk (le : List Char) (f : Nat) (l r : Option TreeNode) :
    (TreeNode.node le f l r).letter = le := rfl

@[simp] theorem TreeNode.freq_mk (le : List Char) (f : Nat) (l r : Option TreeNode) :
    (TreeNode.node le f l r).freq = f := rfl

@[simp] theorem TreeNode.left_mk (le : List Char) (f : Nat) (l r : Option TreeNode) :
    (TreeNode.node le f l r).left = l := rfl

@[simp] theorem TreeNode.right_mk (le : List Char) (f : Nat) (l r : Option TreeNode) :
    (TreeNode.node le f l r).right = r := rfl

/-! ### List update helpers -/

theorem getD_set_eq {α : Type} (l : List α) (i : Nat) (x d : α) (h : i < l.length) :
    (l.set i x).getD i d = x := by
  simp [List.getD_eq_getElem?_getD, List.getElem?_set_self', List.getElem?_eq_getElem h]

theorem getD_set_ne {α : Type} (l : List α) (i j : Nat) (x d : α) (h : i ≠ j) :
    (l.set i x).getD j d = l.getD j d := by
  simp [List.getD_eq_getElem?_getD, List.getElem?_set_ne h]

theorem set_getD_self {α : Type} : ∀ (l : List α) (i : Nat) (d : α), i < l.length →
    l.set i (l.getD i d) = l
  | [], i, _, h => by simp at h
  | _ :: _, 0, _, _ => by simp
  | a :: t, i + 1, d, h => by
    simp only [List.getD_cons_succ, List.set]
    rw [set_getD_self t i d (by simpa using h)]

theorem set_cons_perm {α : Type} : ∀ (l : List α) (i : Nat) (x d : α), i < l.length →
    List.Perm (l.getD i d :: l.set i x) (x :: l)
  | [], i, _, _, h => by simp at h
  | a :: t, 0, x, d, _ => by
    simpa using List.Perm.swap x a t
  | a :: t, i + 1, x, d, h => by
    have ih := set_cons_perm t i x d (by simpa using h)
    simp only [List.getD_cons_succ, List.set]
    exact ((List.Perm.swap a (t.getD i d) _).trans
      (List.Perm.cons a ih)).trans (List.Perm.swap x a t)

theorem set_set_perm {α : Type} (l : List α) (i j : Nat) (x d : α)
    (hi : i < l.length) (hj : j < l.length) (hij : i ≠ j) :
    List.Perm ((l.set i (l.getD j d)).set j x) (l.set i x) := by
  have h1 : List.Perm (l.getD j d :: (l.set i (l.getD j d)).set j x)
      (x :: l.set i (l.getD j d)) := by
    have hper := set_cons_perm (l.set i (l.getD j d)) j x d (by simpa using hj)
    rwa [getD_set_ne l i j _ d hij] at hper
  have h2 : List.Perm (l.getD i d :: l.set i (l.getD j d)) (l.getD j d :: l) :=
    set_cons_perm l i (l.getD j d) d hi
  have h3 : List.Perm (l.getD i d :: l.set i x) (x :: l) := set_cons_perm l i x d hi
  have big : List.Perm (l.getD i d :: l.getD j d :: (l.set i (l.getD j d)).set j x)
      (l.getD i d :: l.getD j d :: l.set i x) :=
    ((((List.Perm.cons _ h1).trans
        (List.Perm.swap x _ _)).trans
        ((List.Perm.cons x h2).trans
        (List.Perm.swap _ x _))).trans
        (List.Perm.cons _ h3.symm)).trans
        (List.Perm.swap _ _ _)
  exact (big.cons_inv).cons_inv

/-! ### heapq model: permutation and length facts -/

theorem siftdownAux_length : ∀ (fuel : Nat) (heap : List TreeNode) (sp pos : Nat) (ni : TreeNode),
    (siftdownAux heap sp pos ni fuel).length = heap.length
  | 0, heap, _, pos, ni => by simp [siftdownAux]
  | fuel + 1, heap, sp, pos, ni => by
    simp only [siftdownAux]
    split
    · split
      · rw [siftdownAux_length fuel]; simp
      · simp
    · simp

theorem siftdownAux_perm : ∀ (fuel : Nat) (heap : List TreeNode) (sp pos : Nat) (ni : TreeNode),
    pos < heap.length → List.Perm (siftdownAux heap sp pos ni fuel) (heap.set pos ni)
  | 0, heap, _, pos, ni, _ => List.Perm.refl _
  | fuel + 1, heap, sp, pos, ni, h => by
    simp only [siftdownAux]
    split
    · split
      · have hppos : (pos - 1) / 2 < pos := by omega
        have ih := siftdownAux_perm fuel (heap.set pos (heap.getD ((pos - 1) / 2) dNode)) sp
          ((pos - 1) / 2) ni (by simpa using Nat.lt_trans hppos h)
        exact ih.trans (set_set_perm heap pos ((pos - 1) / 2) ni dNode h
          (Nat.lt_trans hppos h) (by omega))
      · exact List.Perm.refl _
    · exact List.Perm.refl _

theorem siftupLoop_spec : ∀ (fuel : Nat) (heap : List TreeNode) (pos : Nat), pos < heap.length →
    (siftupLoop heap pos fuel).2 < (siftupLoop heap pos fuel).1.length ∧
    (siftupLoop heap pos fuel).1.length = heap.length ∧
    ∀ x, List.Perm ((siftupLoop heap pos fuel).1.set (siftupLoop heap pos fuel).2 x)
      (heap.set pos x)
  | 0, heap, pos, h => ⟨h, rfl, fun _ => List.Perm.refl _⟩
  | fuel + 1, heap, pos, h => by
    simp only [siftupLoop]
    split
    · case isTrue hch =>
      set cp := if 2 * pos + 1 + 1 < heap.length ∧
          ¬ (heap.getD (2 * pos + 1) dNode).freq < (heap.getD (2 * pos + 1 + 1) dNode).freq
        then 2 * pos + 1 + 1 else 2 * pos + 1 with hcp
      have hcplt : cp < heap.length := by
        rw [hcp]; split
        · case isTrue hh => exact hh.1
        · exact hch
      have hne : pos ≠ cp := by rw [hcp]; split <;> omega
      have ih := siftupLoop_spec fuel (heap.set pos (heap.getD cp dNode)) cp
        (by simpa using hcplt)
      refine ⟨ih.1, by rw [ih.2.1]; simp, fun x => ?_⟩
      exact (ih.2.2 x).trans (set_set_perm heap pos cp x dNode h hcplt hne)
    · exact ⟨h, rfl, fun _ => List.Perm.refl _⟩

theorem siftup_length (heap : List TreeNode) (pos : Nat) (h : pos < heap.length) :
    (siftup heap pos).length = heap.length := by
  have hs := siftupLoop_spec heap.length heap pos h
  simp only [siftup, siftdown]
  rw [siftdownAux_length, List.length_set, hs.2.1]

theorem siftup_perm (heap : List TreeNode) (pos : Nat) (h : pos < heap.length) :
    List.Perm (siftup heap pos) heap := by
  have hs := siftupLoop_spec heap.length heap pos h
  simp only [siftup, siftdown]
  rw [getD_set_eq _ _ _ _ hs.1]
  have h2 : (siftupLoop heap pos heap.length).2 <
      ((siftupLoop heap pos heap.length).1.set (siftupLoop heap pos heap.length).2
        (heap.getD pos dNode)).length := by
    simpa using hs.1
  have hperm := siftdownAux_perm (siftupLoop heap pos heap.length).2 _ pos
    (siftupLoop heap pos heap.length).2 (heap.getD pos dNode) h2
  rw [List.set_set] at hperm
  refine (hperm.trans (hs.2.2 (heap.getD pos dNode))).trans ?_
  rw [set_getD_self heap pos dNode h]

theorem set_append_last {α : Type} : ∀ (l : List α) (x y : α),
    (l ++ [x]).set l.length y = l ++ [y]
  | [], _, _ => rfl
  | a :: t, x, y => by
    simp [List.set, set_append_last t x y]

theorem heappush_perm (heap : List TreeNode) (x : TreeNode) :
    List.Perm (heappush heap x) (x :: heap) := by
  have hlen : heap.length < (heap ++ [x]).length := by simp
  have hget : (heap ++ [x]).getD heap.length dNode = x := by
    simp [List.getD_eq_getElem?_getD, List.getElem?_concat_length]
  have hset : (heap ++ [x]).set heap.length x = heap ++ [x] := set_append_last heap x x
  have hperm := siftdownAux_perm heap.length (heap ++ [x]) 0 heap.length x hlen
  simp only [heappush, siftdown, hget]
  rw [hset] at hperm
  exact hperm.trans (List.perm_append_singleton x heap)

theorem heappush_length (heap : List TreeNode) (x : TreeNode) :
    (heappush heap x).length = heap.length + 1 := by
  simp only [heappush, siftdown]
  rw [siftdownAux_length]; simp

theorem heappop_spec : ∀ (heap : List TreeNode), heap ≠ [] →
    ∃ x h', heappop heap = some (x, h') ∧ List.Perm heap (x :: h') ∧
      h'.length + 1 = heap.length
  | [], h => absurd rfl h
  | y :: ys, _ => by
    rcases List.eq_nil_or_concat ys with hc | ⟨zs, b, hc⟩
    · subst hc
      exact ⟨y, [], by simp [heappop], List.Perm.refl _, by simp⟩
    · rw [List.concat_eq_append] at hc
      subst hc
      have hlast : (y :: (zs ++ [b])).getLastD dNode = b := by
        rw [show y :: (zs ++ [b]) = (y :: zs) ++ [b] by simp]
        exact List.getLastD_concat _ _ _
      have hdrop : (y :: (zs ++ [b])).dropLast = y :: zs := by
        rw [show y :: (zs ++ [b]) = (y :: zs) ++ [b] by simp]
        exact List.dropLast_concat
      refine ⟨y, siftup (b :: zs) 0, ?_, ?_, ?_⟩
      · simp only [heappop, hlast, hdrop, List.isEmpty_cons, Bool.false_eq_true,
          if_false, List.getD_cons_zero, List.set]
      · have hsp := siftup_perm (b :: zs) 0 (by simp)
        exact (List.Perm.cons y (List.perm_append_singleton b zs)).trans
          (List.Perm.cons y hsp.symm)
      · rw [siftup_length (b :: zs) 0 (by simp)]; simp

theorem heappop_perm_of_eq {heap : List TreeNode} {x : TreeNode} {h' : List TreeNode}
    (h : heappop heap = some (x, h')) :
    List.Perm heap (x :: h') ∧ h'.length + 1 = heap.length := by
  have hne : heap ≠ [] := by
    intro hnil; rw [hnil] at h; simp [heappop] at h
  obtain ⟨y, k, heq, hperm, hlen⟩ := heappop_spec heap hne
  rw [heq] at h
  obtain ⟨rfl, rfl⟩ : y = x ∧ k = h' := by
    constructor <;> [exact congrArg (fun p => (Option.getD p (dNode, [])).1) h;
      exact congrArg (fun p => (Option.getD p (dNode, [])).2) h]
  exact ⟨hperm, hlen⟩

/-! ### `make_dict` facts -/

theorem bump_snd_sum : ∀ (d : List (Char × Nat)) (c : Char),
    ((bump d c).map Prod.snd).sum = (d.map Prod.snd).sum + 1
  | [], c => by simp [bump]
  | (k, v) :: rest, c => by
    by_cases h : k = c
    · simp [bump, h]; omega
    · simp [bump, h, bump_snd_sum rest c]; omega

theorem bump_keys : ∀ (d : List (Char × Nat)) (c : Char),
    (bump d c).map Prod.fst = d.map Prod.fst ∨
      ((bump d c).map Prod.fst = d.map Prod.fst ++ [c] ∧ c ∉ d.map Prod.fst)
  | [], c => by simp [bump]
  | (k, v) :: rest, c => by
    by_cases h : k = c
    · left; simp [bump, h]
    · rcases bump_keys rest c with hk | ⟨hk, hmem⟩
      · left; simp [bump, h, hk]
      · right
        constructor
        · simp [bump, h, hk]
        · simp only [List.map_cons, List.mem_cons]
          rintro (hc | hc)
          · exact h hc.symm
          · exact hmem hc

theorem bump_keys_nodup (d : List (Char × Nat)) (c : Char)
    (h : (d.map Prod.fst).Nodup) : ((bump d c).map Prod.fst).Nodup := by
  rcases bump_keys d c with hk | ⟨hk, hmem⟩
  · rwa [hk]
  · rw [hk]; simp [List.nodup_append, h, hmem]

theorem bump_keys_sub (d : List (Char × Nat)) (c k : Char)
    (h : k ∈ d.map Prod.fst) : k ∈ (bump d c).map Prod.fst := by
  rcases bump_keys d c with hk | ⟨hk, _⟩
  · rwa [hk]
  · rw [hk]; exact List.mem_append_left _ h

theorem bump_keys_self : ∀ (d : List (Char × Nat)) (c : Char), c ∈ (bump d c).map Prod.fst
  | [], c => by simp [bump]
  | (k, v) :: rest, c => by
    by_cases h : k = c
    · simp [bump, h]
    · simp only [bump, if_neg h, List.map_cons, List.mem_cons]
      exact Or.inr (bump_keys_self rest c)

theorem bump_pos : ∀ (d : List (Char × Nat)) (c : Char), (∀ p ∈ d, 1 ≤ p.2) →
    ∀ p ∈ bump d c, 1 ≤ p.2
  | [], c, _, p, hp => by
    simp only [bump, List.mem_singleton] at hp
    subst hp; simp
  | (k, v) :: rest, c, h, p, hp => by
    by_cases hk : k = c
    · simp only [bump, if_pos hk, List.mem_cons] at hp
      rcases hp with rfl | hmem
      · simp
      · exact h p (List.mem_cons_of_mem _ hmem)
    · simp only [bump, if_neg hk, List.mem_cons] at hp
      rcases hp with rfl | hmem
      · exact h (k, v) (List.mem_cons_self _ _)
      · exact bump_pos rest c (fun r hr => h r (List.mem_cons_of_mem _ hr)) p hmem

theorem foldl_bump_sum : ∀ (data : List Char) (acc : List (Char × Nat)),
    (((data.foldl bump acc).map Prod.snd)).sum = ((acc.map Prod.snd)).sum + data.length
  | [], acc => by simp
  | c :: rest, acc => by
    simp only [List.foldl_cons, foldl_bump_sum rest (bump acc c), bump_snd_sum acc c,
      List.length_cons]
    omega

theorem make_dict_sum (s : List Char) : ((make_dict s).map Prod.snd).sum = s.length := by
  simpa using foldl_bump_sum s []

theorem foldl_bump_nodup : ∀ (data : List Char) (acc : List (Char × Nat)),
    (acc.map Prod.fst).Nodup → ((data.foldl bump acc).map Prod.fst).Nodup
  | [], _, h => h
  | c :: rest, acc, h =>
    foldl_bump_nodup rest (bump acc c) (bump_keys_nodup acc c h)

theorem make_dict_nodup (s : List Char) : ((make_dict s).map Prod.fst).Nodup :=
  foldl_bump_nodup s [] (by simp)

theorem foldl_bump_pos : ∀ (data : List Char) (acc : List (Char × Nat)),
    (∀ p ∈ acc, 1 ≤ p.2) → ∀ p ∈ data.foldl bump acc, 1 ≤ p.2
  | [], _, h => h
  | c :: rest, acc, h =>
    foldl_bump_pos rest (bump acc c) (bump_pos acc c h)

theorem make_dict_pos (s : List Char) : ∀ p ∈ make_dict s, 1 ≤ p.2 :=
  foldl_bump_pos s [] (by simp)

theorem foldl_bump_keys_sub : ∀ (data : List Char) (acc : List (Char × Nat)) (k : Char),
    k ∈ acc.map Prod.fst → k ∈ (data.foldl bump acc).map Prod.fst
  | [], _, _, h => h
  | c :: rest, acc, k, h =>
    foldl_bump_keys_sub rest (bump acc c) k (bump_keys_sub acc c k h)

theorem make_dict_mem : ∀ (s : List Char) (acc : List (Char × Nat)) (c : Char),
    c ∈ s → c ∈ (s.foldl bump acc).map Prod.fst
  | [], _, _, h => absurd h (List.not_mem_nil _)
  | a :: rest, acc, c, h => by
    rcases List.mem_cons.mp h with rfl | hmem
    · exact foldl_bump_keys_sub rest (bump acc c) c (bump_keys_self acc c)
    · exact make_dict_mem rest (bump acc a) c hmem

/-! ### The initial heap of leaves -/

theorem foldl_heappush_perm : ∀ (l : List (Char × Nat)) (h : List TreeNode),
    List.Perm (l.foldl (fun h p => heappush h (TreeNode.node [p.1] p.2 none none)) h)
      (h ++ l.map (fun p => TreeNode.node [p.1] p.2 none none))
  | [], h => by simp
  | p :: rest, h => by
    have ih := foldl_heappush_perm rest (heappush h (TreeNode.node [p.1] p.2 none none))
    simp only [List.foldl_cons, List.map_cons]
    refine ih.trans ?_
    refine ((List.Perm.append (heappush_perm h _) (List.Perm.refl _)).trans ?_)
    exact (List.perm_middle).symm

theorem foldl_heappush_length : ∀ (l : List (Char × Nat)) (h : List TreeNode),
    (l.foldl (fun h p => heappush h (TreeNode.node [p.1] p.2 none none)) h).length
      = h.length + l.length
  | [], h => by simp
  | p :: rest, h => by
    simp only [List.foldl_cons, List.length_cons,
      foldl_heappush_length rest (heappush h (TreeNode.node [p.1] p.2 none none)),
      heappush_length]
    omega

theorem initialHeap_perm (s : List Char) :
    List.Perm (initialHeap s)
      ((make_dict s).map (fun p => TreeNode.node [p.1] p.2 none none)) := by
  simpa [initialHeap] using foldl_heappush_perm (make_dict s) []

theorem initialHeap_length (s : List Char) :
    (initialHeap s).length = (make_dict s).length := by
  simpa [initialHeap] using foldl_heappush_length (make_dict s) []

/-! ### Well-formed trees -/

theorem goodT_pos : ∀ (t : TreeNode), goodT t → 1 ≤ t.freq
  | .node letter freq none none, h => h.2
  | .node letter freq (some l) (some r), h => by
    have hl := goodT_pos l h.1
    have hf : freq = l.freq + r.freq := h.2.2.1
    simp only [TreeNode.freq] at *
    omega
  | .node _ _ none (some _), h => absurd h (by simp [goodT])
  | .node _ _ (some _) none, h => absurd h (by simp [goodT])

theorem goodT_letter_ne : ∀ (t : TreeNode), goodT t → t.letter ≠ []
  | .node letter freq none none, h => by
    have h1 := h.1
    simp only [TreeNode.letter] at *
    intro hc; rw [hc] at h1; simp at h1
  | .node letter freq (some l) (some r), h => by
    have hl := goodT_letter_ne l h.1
    have hle : letter = l.letter ++ r.letter := h.2.2.2
    simp only [TreeNode.letter] at *
    rw [hle]
    simp [hl]
  | .node _ _ none (some _), h => absurd h (by simp [goodT])
  | .node _ _ (some _) none, h => absurd h (by simp [goodT])

/-! ### The merge loop -/

theorem sum_pos_eq_nil (l : List TreeNode) (hg : ∀ t ∈ l, goodT t)
    (hs : (l.map TreeNode.freq).sum = 0) : l = [] := by
  cases l with
  | nil => rfl
  | cons a t =>
    have ha := goodT_pos a (hg a (List.mem_cons_self a t))
    simp only [List.map_cons, List.sum_cons] at hs
    omega

theorem buildLoop_some : ∀ (fuel : Nat) (heap : List TreeNode) (lenS : Nat) (root : TreeNode)
    (KeyL : List Char),
    (∀ t ∈ heap, goodT t) →
    List.Perm (heap.map TreeNode.letter).flatten KeyL →
    (heap.map TreeNode.freq).sum = lenS →
    buildLoop heap lenS fuel = some root →
    goodT root ∧ root.freq = lenS ∧ List.Perm root.letter KeyL ∧
      ∃ a b le, root = TreeNode.node le lenS (some a) (some b)
  | 0, heap, lenS, root, KeyL, _, _, _, h => by simp [buildLoop] at h
  | fuel + 1, heap, lenS, root, KeyL, hg, hletter, hsum, h => by
    simp only [buildLoop] at h
    cases h1 : heappop heap with
    | none => rw [h1] at h; exact absurd h (by simp)
    | some p1 =>
      obtain ⟨node1, h1'⟩ := p1
      rw [h1] at h
      simp only at h
      cases h2 : heappop h1' with
      | none => rw [h2] at h; exact absurd h (by simp)
      | some p2 =>
        obtain ⟨node2, h2'⟩ := p2
        rw [h2] at h
        simp only at h
        obtain ⟨hp1, _⟩ := heappop_perm_of_eq h1
        obtain ⟨hp2, _⟩ := heappop_perm_of_eq h2
        have hperm : List.Perm heap (node1 :: node2 :: h2') :=
          hp1.trans (List.Perm.cons node1 hp2)
        have hg1 : goodT node1 := hg node1 (hperm.mem_iff.mpr (by simp))
        have hg2 : goodT node2 := hg node2 (hperm.mem_iff.mpr (by simp))
        have hg2' : ∀ t ∈ h2', goodT t := fun t ht =>
          hg t (hperm.mem_iff.mpr (by simp [ht]))
        have hsum' : node1.freq + node2.freq + (h2'.map TreeNode.freq).sum = lenS := by
          have heq := (hperm.map TreeNode.freq).sum_eq
          rw [heq] at hsum
          simp only [List.map_cons, List.sum_cons] at hsum
          omega
        have hlet : List.Perm (node1.letter ++ node2.letter ++ (h2'.map TreeNode.letter).flatten)
            KeyL := by
          refine List.Perm.trans ?_ hletter
          have := ((hperm.map TreeNode.letter).flatten).symm
          simpa [List.append_assoc] using this
        have hgp : goodT (TreeNode.node (node1.letter ++ node2.letter)
            (node1.freq + node2.freq) (some node1) (some node2)) := by
          exact ⟨hg1, hg2, rfl, rfl⟩
        by_cases hcond : node1.freq + node2.freq = lenS
        · rw [if_pos (by simpa [TreeNode.freq] using hcond)] at h
          have hroot : TreeNode.node (node1.letter ++ node2.letter)
              (node1.freq + node2.freq) (some node1) (some node2) = root := by
            simpa using h
          have hnil : h2' = [] := sum_pos_eq_nil h2' hg2' (by omega)
          subst hnil
          rw [← hroot]
          refine ⟨hgp, by simpa [TreeNode.freq] using hcond, ?_, ?_⟩
          · simp only [TreeNode.letter]
            simpa using hlet
          · exact ⟨node1, node2, node1.letter ++ node2.letter, by rw [hcond]⟩
        · rw [if_neg (by simpa [TreeNode.freq] using hcond)] at h
          have hpp := heappush_perm h2' (TreeNode.node (node1.letter ++ node2.letter)
            (node1.freq + node2.freq) (some node1) (some node2))
          refine buildLoop_some fuel _ lenS root KeyL ?_ ?_ ?_ h
          · intro t ht
            rcases List.mem_cons.mp (hpp.mem_iff.mp ht) with rfl | hmem
            · exact hgp
            · exact hg2' t hmem
          · refine List.Perm.trans ?_ hlet
            have := (hpp.map TreeNode.letter).flatten
            simpa [TreeNode.letter, List.append_assoc] using this
          · have := (hpp.map TreeNode.freq).sum_eq
            rw [this]
            simpa [TreeNode.freq] using hsum'

theorem heappush_nil (x : TreeNode) : heappush [] x = [x] := rfl

theorem heappop_single (x : TreeNode) : heappop [x] = some (x, []) := rfl

theorem buildLoop_eq_spec : ∀ (fuel : Nat) (heap : List TreeNode) (lenS : Nat),
    (∀ t ∈ heap, goodT t) →
    (heap.map TreeNode.freq).sum = lenS →
    2 ≤ heap.length → heap.length ≤ fuel →
    buildLoop heap lenS fuel = buildLoopSpec fuel heap ∧
      (buildLoop heap lenS fuel).isSome = true
  | 0, heap, lenS, _, _, h2, hf => absurd (le_trans h2 hf) (by omega)
  | fuel + 1, heap, lenS, hg, hsum, h2, hf => by
    have hne : heap ≠ [] := by intro hc; rw [hc] at h2; simp at h2
    obtain ⟨n1, h1, heq1, hp1, hl1⟩ := heappop_spec heap hne
    have hne1 : h1 ≠ [] := by
      intro hc; rw [hc] at hl1; simp at hl1; omega
    obtain ⟨n2, h2', heq2, hp2, hl2⟩ := heappop_spec h1 hne1
    have hlen1 : heap.length ≠ 1 := by omega
    have hperm : List.Perm heap (n1 :: n2 :: h2') := hp1.trans (List.Perm.cons n1 hp2)
    have hg1 : goodT n1 := hg n1 (hperm.mem_iff.mpr (by simp))
    have hg2 : goodT n2 := hg n2 (hperm.mem_iff.mpr (by simp))
    have hg2' : ∀ t ∈ h2', goodT t := fun t ht =>
      hg t (hperm.mem_iff.mpr (by simp [ht]))
    have hsum' : n1.freq + n2.freq + (h2'.map TreeNode.freq).sum = lenS := by
      have heq := (hperm.map TreeNode.freq).sum_eq
      rw [heq] at hsum
      simp only [List.map_cons, List.sum_cons] at hsum
      omega
    have hgp : goodT (TreeNode.node (n1.letter ++ n2.letter)
        (n1.freq + n2.freq) (some n1) (some n2)) := ⟨hg1, hg2, rfl, rfl⟩
    simp only [buildLoop, buildLoopSpec, heq1, heq2, if_neg hlen1, TreeNode.freq_mk]
    by_cases hcond : n1.freq + n2.freq = lenS
    · have hnil : h2' = [] := sum_pos_eq_nil h2' hg2' (by omega)
      subst hnil
      rw [if_pos hcond, heappush_nil]
      have hfuel : 1 ≤ fuel := by
        have hh1 : h1.length = 1 := by simp at hl2; omega
        omega
      match fuel, hfuel with
      | f + 1, _ =>
        refine ⟨?_, rfl⟩
        simp [buildLoopSpec, heappop_single]
    · rw [if_neg hcond]
      have hne2 : h2' ≠ [] := by
        intro hc
        subst hc
        simp at hsum'
        exact hcond hsum'
      have hlen2 : 1 ≤ h2'.length := by
        cases h2' with
        | nil => exact absurd rfl hne2
        | cons a t => simp
      refine buildLoop_eq_spec fuel _ lenS ?_ ?_ ?_ ?_
      · intro t ht
        have hpp := heappush_perm h2' (TreeNode.node (n1.letter ++ n2.letter)
          (n1.freq + n2.freq) (some n1) (some n2))
        rcases List.mem_cons.mp (hpp.mem_iff.mp ht) with rfl | hmem
        · exact hgp
        · exact hg2' t hmem
      · have hpp := heappush_perm h2' (TreeNode.node (n1.letter ++ n2.letter)
          (n1.freq + n2.freq) (some n1) (some n2))
        have heq := (hpp.map TreeNode.freq).sum_eq
        rw [heq]
        simp only [List.map_cons, List.sum_cons, TreeNode.freq_mk]
        omega
      · rw [heappush_length]
        omega
      · rw [heappush_length]
        omega

/-! ### `tree_dfs` and the code list -/

theorem dfs_eq : ∀ (n : TreeNode) (cur : List Char) (leaves : List (List Char × List Char)),
    tree_dfs_go n cur leaves = leaves ++ dfsList n cur
  | .node letter f none none, cur, leaves => by
    simp [tree_dfs_go, dfsList]
  | .node letter f (some l) (some r), cur, leaves => by
    simp [tree_dfs_go, dfsList, dfs_eq r (cur ++ ['1']) leaves,
      dfs_eq l (cur ++ ['0']) (leaves ++ dfsList r (cur ++ ['1']))]
  | .node letter f none (some r), cur, leaves => by
    simp [tree_dfs_go, dfsList, dfs_eq r (cur ++ ['1']) leaves]
  | .node letter f (some l) none, cur, leaves => by
    simp [tree_dfs_go, dfsList, dfs_eq l (cur ++ ['0']) leaves]

theorem dfsList_ne_nil : ∀ (n : TreeNode) (cur : List Char), dfsList n cur ≠ []
  | .node letter f none none, cur => by simp [dfsList]
  | .node letter f (some l) (some r), cur => by
    simp [dfsList, dfsList_ne_nil r (cur ++ ['1'])]
  | .node letter f none (some r), cur => by
    simp [dfsList, dfsList_ne_nil r (cur ++ ['1'])]
  | .node letter f (some l) none, cur => by
    simp [dfsList, dfsList_ne_nil l (cur ++ ['0'])]

theorem dfsList_letters : ∀ (n : TreeNode) (cur : List Char), goodT n →
    List.Perm ((dfsList n cur).map Prod.fst).flatten n.letter
  | .node letter f none none, cur, _ => by
    simp [dfsList]
  | .node letter f (some l) (some r), cur, h => by
    have ihl := dfsList_letters l (cur ++ ['0']) h.1
    have ihr := dfsList_letters r (cur ++ ['1']) h.2.1
    have hle : letter = l.letter ++ r.letter := h.2.2.2
    simp only [dfsList, List.map_append, List.flatten_append, TreeNode.letter_mk, hle]
    exact (List.Perm.append ihr ihl).trans List.perm_append_comm
  | .node _ _ none (some _), _, h => absurd h (by simp [goodT])
  | .node _ _ (some _) none, _, h => absurd h (by simp [goodT])

theorem dfsList_fst_len : ∀ (n : TreeNode) (cur : List Char), goodT n →
    ∀ p ∈ dfsList n cur, p.1.length = 1
  | .node letter f none none, cur, h, p, hp => by
    simp only [dfsList, List.mem_singleton] at hp
    subst hp
    exact h.1
  | .node letter f (some l) (some r), cur, h, p, hp => by
    simp only [dfsList, List.mem_append] at hp
    rcases hp with hp | hp
    · exact dfsList_fst_len r (cur ++ ['1']) h.2.1 p hp
    · exact dfsList_fst_len l (cur ++ ['0']) h.1 p hp
  | .node _ _ none (some _), _, h, _, _ => absurd h (by simp [goodT])
  | .node _ _ (some _) none, _, h, _, _ => absurd h (by simp [goodT])

theorem dfsList_code_pre : ∀ (n : TreeNode) (cur : List Char) (p : List Char × List Char),
    p ∈ dfsList n cur → cur <+: p.2
  | .node letter f none none, cur, p, hp => by
    simp only [dfsList, List.mem_singleton] at hp
    subst hp
    exact ⟨[], by simp⟩
  | .node letter f (some l) (some r), cur, p, hp => by
    simp only [dfsList, List.mem_append] at hp
    rcases hp with hp | hp
    · exact (List.prefix_append cur ['1']).trans (dfsList_code_pre r (cur ++ ['1']) p hp)
    · exact (List.prefix_append cur ['0']).trans (dfsList_code_pre l (cur ++ ['0']) p hp)
  | .node letter f none (some r), cur, p, hp => by
    simp only [dfsList] at hp
    exact (List.prefix_append cur ['1']).trans (dfsList_code_pre r (cur ++ ['1']) p hp)
  | .node letter f (some l) none, cur, p, hp => by
    simp only [dfsList] at hp
    exact (List.prefix_append cur ['0']).trans (dfsList_code_pre l (cur ++ ['0']) p hp)

theorem dfsList_code_long (le : List Char) (f : Nat) (l r : TreeNode) (cur : List Char)
    (p : List Char × List Char) (hp : p ∈ dfsList (.node le f (some l) (some r)) cur) :
    cur.length < p.2.length := by
  simp only [dfsList, List.mem_append] at hp
  rcases hp with hp | hp
  · have := (dfsList_code_pre r (cur ++ ['1']) p hp).length_le
    simp at this
    omega
  · have := (dfsList_code_pre l (cur ++ ['0']) p hp).length_le
    simp at this
    omega

theorem cross_not_pre (cur x y : List Char) (c d : Char) (hcd : c ≠ d)
    (hx : (cur ++ [c]) <+: x) (hy : (cur ++ [d]) <+: y) : ¬ x <+: y := by
  intro hxy
  have h1 : (cur ++ [c]) <+: y := hx.trans hxy
  obtain ⟨t, ht⟩ := List.prefix_of_prefix_length_le h1 hy (by simp)
  have hlen := congrArg List.length ht
  simp only [List.length_append, List.length_singleton] at hlen
  have ht' : t = [] := List.length_eq_zero.mp (by omega)
  subst ht'
  simp only [List.append_nil] at ht
  have hc : c = d := by
    have := List.append_cancel_left ht
    simpa using this
  exact hcd hc

theorem dfsList_pf : ∀ (n : TreeNode) (cur : List Char),
    ((dfsList n cur).map Prod.snd).Pairwise (fun a b => ¬ a <+: b ∧ ¬ b <+: a)
  | .node letter f none none, cur => by simp [dfsList]
  | .node letter f (some l) (some r), cur => by
    simp only [dfsList, List.map_append, List.pairwise_append]
    refine ⟨dfsList_pf r (cur ++ ['1']), dfsList_pf l (cur ++ ['0']), ?_⟩
    intro a ha b hb
    obtain ⟨pa, hpa, rfl⟩ := List.mem_map.mp ha
    obtain ⟨pb, hpb, rfl⟩ := List.mem_map.mp hb
    have h1 := dfsList_code_pre r (cur ++ ['1']) pa hpa
    have h0 := dfsList_code_pre l (cur ++ ['0']) pb hpb
    exact ⟨cross_not_pre cur pa.2 pb.2 '1' '0' (by decide) h1 h0,
      cross_not_pre cur pb.2 pa.2 '0' '1' (by decide) h0 h1⟩
  | .node letter f none (some r), cur => by
    simp only [dfsList]
    exact dfsList_pf r (cur ++ ['1'])
  | .node letter f (some l) none, cur => by
    simp only [dfsList]
    exact dfsList_pf l (cur ++ ['0'])

theorem dfsList_code_chars : ∀ (n : TreeNode) (cur : List Char)
    (p : List Char × List Char) (c : Char), p ∈ dfsList n cur → c ∈ p.2 →
    c ∈ cur ∨ c = '0' ∨ c = '1'
  | .node letter f none none, cur, p, c, hp, hc => by
    simp only [dfsList, List.mem_singleton] at hp
    subst hp
    exact Or.inl hc
  | .node letter f (some l) (some r), cur, p, c, hp, hc => by
    simp only [dfsList, List.mem_append] at hp
    rcases hp with hp | hp
    · rcases dfsList_code_chars r (cur ++ ['1']) p c hp hc with hm | hm
      · rcases List.mem_append.mp hm with hm' | hm'
        · exact Or.inl hm'
        · simp only [List.mem_singleton] at hm'; exact Or.inr (Or.inr hm')
      · exact Or.inr hm
    · rcases dfsList_code_chars l (cur ++ ['0']) p c hp hc with hm | hm
      · rcases List.mem_append.mp hm with hm' | hm'
        · exact Or.inl hm'
        · simp only [List.mem_singleton] at hm'; exact Or.inr (Or.inl hm')
      · exact Or.inr hm
  | .node letter f none (some r), cur, p, c, hp, hc => by
    simp only [dfsList] at hp
    rcases dfsList_code_chars r (cur ++ ['1']) p c hp hc with hm | hm
    · rcases List.mem_append.mp hm with hm' | hm'
      · exact Or.inl hm'
      · simp only [List.mem_singleton] at hm'; exact Or.inr (Or.inr hm')
    · exact Or.inr hm
  | .node letter f (some l) none, cur, p, c, hp, hc => by
    simp only [dfsList] at hp
    rcases dfsList_code_chars l (cur ++ ['0']) p c hp hc with hm | hm
    · rcases List.mem_append.mp hm with hm' | hm'
      · exact Or.inl hm'
      · simp only [List.mem_singleton] at hm'; exact Or.inr (Or.inl hm')
    · exact Or.inr hm

/-! ### Association-list facts -/

theorem pylookup_mem {κ β : Type} [DecidableEq κ] : ∀ (d : List (κ × β)) (k : κ) (v : β),
    pylookup d k = some v → (k, v) ∈ d
  | [], k, v, h => by simp [pylookup] at h
  | (a, b) :: rest, k, v, h => by
    by_cases hk : a = k
    · subst hk
      have hb : pylookup ((a, b) :: rest) a = some b := by simp [pylookup]
      rw [hb, Option.some.injEq] at h
      subst h
      exact List.mem_cons_self _ _
    · simp only [pylookup, if_neg hk] at h
      exact List.mem_cons_of_mem _ (pylookup_mem rest k v h)

theorem mem_pylookup {κ β : Type} [DecidableEq κ] : ∀ (d : List (κ × β)) (k : κ) (v : β),
    (d.map Prod.fst).Nodup → (k, v) ∈ d → pylookup d k = some v
  | [], k, v, _, h => by simp at h
  | (a, b) :: rest, k, v, hnd, h => by
    rcases List.mem_cons.mp h with heq | hmem
    · cases heq
      simp [pylookup]
    · have hk : a ≠ k := by
        intro hc
        subst hc
        have hmm : a ∈ rest.map Prod.fst :=
          List.mem_map.mpr ⟨(a, v), hmem, rfl⟩
        simp only [List.map_cons, List.nodup_cons] at hnd
        exact hnd.1 hmm
      have hnd' : (rest.map Prod.fst).Nodup := by
        simp only [List.map_cons, List.nodup_cons] at hnd
        exact hnd.2
      simp only [pylookup, if_neg hk]
      exact mem_pylookup rest k v hnd' hmem

theorem pylookup_none_iff {κ β : Type} [DecidableEq κ] : ∀ (d : List (κ × β)) (k : κ),
    pylookup d k = none ↔ k ∉ d.map Prod.fst
  | [], k => by simp [pylookup]
  | (a, b) :: rest, k => by
    by_cases hk : a = k
    · subst hk
      simp [pylookup]
    · simp only [pylookup, if_neg hk, List.map_cons, List.mem_cons]
      rw [pylookup_none_iff rest k]
      constructor
      · intro h hc
        rcases hc with hc | hc
        · exact hk hc.symm
        · exact h hc
      · intro h hc
        exact h (Or.inr hc)

theorem pyinsert_fresh {κ β : Type} [DecidableEq κ] : ∀ (d : List (κ × β)) (k : κ) (v : β),
    k ∉ d.map Prod.fst → pyinsert d k v = d ++ [(k, v)]
  | [], k, v, _ => rfl
  | (a, b) :: rest, k, v, h => by
    have hk : a ≠ k := by
      intro hc
      exact h (by simp [hc])
    simp only [pyinsert, if_neg hk, List.cons_append, List.cons.injEq, true_and]
    exact pyinsert_fresh rest k v (by
      intro hc
      exact h (by simp [hc]))

theorem pyinvert_go {κ β : Type} [DecidableEq κ] [DecidableEq β] :
    ∀ (d : List (κ × β)) (acc : List (β × κ)),
    (d.map Prod.snd).Nodup → (∀ p ∈ d, p.2 ∉ acc.map Prod.fst) →
    d.foldl (fun acc p => pyinsert acc p.2 p.1) acc = acc ++ d.map (fun p => (p.2, p.1))
  | [], acc, _, _ => by simp
  | (a, b) :: rest, acc, hnd, hdis => by
    simp only [List.foldl_cons]
    have hfresh : b ∉ acc.map Prod.fst := hdis (a, b) (List.mem_cons_self _ _)
    rw [pyinsert_fresh acc b a hfresh]
    rw [pyinvert_go rest (acc ++ [(b, a)]) (by
        simp only [List.map_cons, List.nodup_cons] at hnd
        exact hnd.2) (by
      intro p hp
      simp only [List.map_append, List.mem_append, List.map_cons, List.map_nil,
        List.mem_singleton]
      rintro (hc | hc)
      · exact hdis p (List.mem_cons_of_mem _ hp) hc
      · simp only [List.map_cons, List.nodup_cons] at hnd
        exact hnd.1 (hc ▸ List.mem_map.mpr ⟨p, hp, rfl⟩))]
    simp

theorem pyinvert_swap {κ β : Type} [DecidableEq κ] [DecidableEq β] (d : List (κ × β))
    (hnd : (d.map Prod.snd).Nodup) : pyinvert d = d.map (fun p => (p.2, p.1)) := by
  simpa [pyinvert] using pyinvert_go d [] hnd (by simp)

theorem buildE2C_eq : ∀ (ls acc out : List (List Char × List Char)),
    buildE2C ls acc = some out → out = acc ++ ls.map (fun p => (p.2, p.1))
  | [], acc, out, h => by
    simp only [buildE2C, Option.some.injEq] at h
    simp [← h]
  | (letter, enc) :: rest, acc, out, h => by
    simp only [buildE2C] at h
    split at h
    · split at h
      · have := buildE2C_eq rest (acc ++ [(enc, letter)]) out h
        simp [this]
      · exact absurd h (by simp)
    · exact absurd h (by simp)

theorem concatCodes_eq : ∀ (s : List Char) (d : List (List Char × List Char))
    (is : List Char), concatCodes s d = some is →
    ∃ cs : List (List Char), List.Forall₂ (fun c code => pylookup d [c] = some code) s cs ∧
      is = cs.flatten
  | [], _, is, h => by
    simp only [concatCodes, Option.some.injEq] at h
    exact ⟨[], List.Forall₂.nil, by simp [← h]⟩
  | c :: rest, d, is, h => by
    simp only [concatCodes] at h
    cases hlk : pylookup d [c] with
    | none => rw [hlk] at h; exact absurd h (by simp)
    | some code =>
      rw [hlk] at h
      simp only at h
      cases htl : concatCodes rest d with
      | none => rw [htl] at h; exact absurd h (by simp)
      | some tl =>
        rw [htl] at h
        simp only [Option.some.injEq] at h
        obtain ⟨cs, hf, hflat⟩ := concatCodes_eq rest d tl htl
        exact ⟨code :: cs, List.Forall₂.cons hlk hf, by simp [← h, hflat]⟩

/-- A list of single-character strings is recovered from its flattening. -/
theorem eq_map_flatten : ∀ (l : List (List Char)), (∀ x ∈ l, x.length = 1) →
    l = l.flatten.map (fun c => [c])
  | [], _ => rfl
  | x :: rest, h => by
    have hx := h x (List.mem_cons_self _ _)
    obtain ⟨c, rfl⟩ : ∃ c, x = [c] := by
      cases x with
      | nil => simp at hx
      | cons a t =>
        cases t with
        | nil => exact ⟨a, rfl⟩
        | cons b u => simp at hx
    have := eq_map_flatten rest (fun y hy => h y (List.mem_cons_of_mem _ hy))
    simp only [List.flatten_cons, List.singleton_append, List.map_cons]
    exact congrArg _ this

/-! ### The decode scan loops -/

theorem pyslice_at (pre c post : List Char) (m : Nat) (hm : m ≤ c.length) :
    pyslice (pre ++ (c ++ post)) pre.length (pre.length + m) = c.take m := by
  simp only [pyslice]
  rw [show pre.length + m - pre.length = m by omega, List.drop_left]
  exact List.take_append_of_le_length hm

theorem scanJ_spec : ∀ (fuel d : Nat) (pre c post : List Char)
    (e2c : List (List Char × List Char)),
    1 ≤ d → d ≤ c.length →
    (∀ m, d ≤ m → m < c.length → pylookup e2c (c.take m) = none) →
    (pylookup e2c c).isSome = true →
    c.length - d < fuel →
    scanJ (pre ++ (c ++ post)) e2c pre.length (pre.length + d) fuel = pre.length + c.length
  | 0, d, pre, c, post, e2c, h1, hd, _, _, hfuel => by omega
  | fuel + 1, d, pre, c, post, e2c, h1, hd, hpp, hsome, hfuel => by
    by_cases hdl : d = c.length
    · subst hdl
      have hsl := pyslice_at pre c post c.length (le_refl _)
      rw [List.take_length] at hsl
      have hnone : (pylookup e2c c).isNone = false := by
        cases hlk : pylookup e2c c with
        | none => rw [hlk] at hsome; simp at hsome
        | some v => simp
      simp only [scanJ, hsl, hnone]
      rw [if_neg (by simp)]
    · have hdlt : d < c.length := lt_of_le_of_ne hd hdl
      have hsl := pyslice_at pre c post d (le_of_lt hdlt)
      have hlt : pre.length + d < (pre ++ (c ++ post)).length := by
        simp [List.length_append]
        omega
      simp only [scanJ, hsl, hpp d (le_refl d) hdlt]
      rw [if_pos (by simp; omega)]
      rw [show pre.length + d + 1 = pre.length + (d + 1) by omega]
      exact scanJ_spec fuel (d + 1) pre c post e2c (by omega) hdlt
        (fun m hm hml => hpp m (by omega) hml) hsome (by omega)

theorem goodBook_no_pre (e2c : List (List Char × List Char)) (hgb : goodBook e2c)
    (c le : List Char) (hlk : pylookup e2c c = some le) :
    ∀ m, 1 ≤ m → m < c.length → pylookup e2c (c.take m) = none := by
  intro m h1 hm
  rw [pylookup_none_iff]
  intro hmem
  have hc : c ∈ e2c.map Prod.fst :=
    List.mem_map.mpr ⟨(c, le), pylookup_mem _ _ _ hlk, rfl⟩
  have hne : c.take m ≠ c := by
    intro hc'
    have hlen := congrArg List.length hc'
    simp only [List.length_take] at hlen
    omega
  have hsymm : Symmetric (fun a b : List Char => ¬ a <+: b ∧ ¬ b <+: a) :=
    fun _ _ h => ⟨h.2, h.1⟩
  have hpf := (hgb.2.forall hsymm) hmem hc hne
  exact hpf.1 ⟨c.drop m, List.take_append_drop m c⟩

theorem scan_concat : ∀ (cs letts : List (List Char)) (fuel : Nat)
    (pre acc : List Char) (e2c : List (List Char × List Char)),
    goodBook e2c →
    List.Forall₂ (fun c le => pylookup e2c c = some le) cs letts →
    cs.length + 1 ≤ fuel →
    scanOuter (pre ++ cs.flatten) e2c pre.length acc fuel
      = some (acc ++ letts.dropLast.flatten)
  | [], letts, fuel, pre, acc, e2c, _, hf, hfuel => by
    cases hf
    match fuel, hfuel with
    | f + 1, _ =>
      simp [scanOuter]
  | c :: cs', letts, fuel, pre, acc, e2c, hgb, hf, hfuel => by
    match letts, hf with
    | le :: letts', List.Forall₂.cons hlk hf' =>
      match fuel, hfuel with
      | f + 1, hfuel =>
        have hcne : c ≠ [] := by
          refine hgb.1 c ?_
          exact List.mem_map.mpr ⟨(c, le), pylookup_mem _ _ _ hlk, rfl⟩
        have hclen : 1 ≤ c.length := by
          cases c with
          | nil => exact absurd rfl hcne
          | cons a t => simp
        have hpp := goodBook_no_pre e2c hgb c le hlk
        have hbinlen : (pre ++ (c ++ cs'.flatten)).length
            = pre.length + c.length + cs'.flatten.length := by
          simp [List.length_append]; omega
        have hjlt : pre.length < (pre ++ (c ++ cs'.flatten)).length := by
          rw [hbinlen]; omega
        have hscanJ := scanJ_spec (pre ++ (c ++ cs'.flatten)).length 1 pre c cs'.flatten e2c
          (le_refl 1) hclen (fun m hm hml => hpp m hm hml) (by simp [hlk])
          (by rw [hbinlen]; omega)
        simp only [List.flatten_cons, ← List.append_assoc] at *
        simp only [scanOuter, if_pos hjlt]
        rw [show pre.length + 1 = pre.length + 1 from rfl] at hscanJ
        -- replace the inner scanJ by its value
        rw [show pre ++ c ++ cs'.flatten = pre ++ (c ++ cs'.flatten) by simp] at *
        rw [hscanJ]
        cases cs' with
        | nil =>
          cases hf'
          have hle : (pre ++ (c ++ [].flatten)).length ≤ pre.length + c.length := by
            simp
          rw [if_pos hle]
          simp
        | cons c2 rest =>
          match letts', hf' with
          | le2 :: letts'', List.Forall₂.cons hlk2 hf'' =>
            have hc2ne : c2 ≠ [] := by
              refine hgb.1 c2 ?_
              exact List.mem_map.mpr ⟨(c2, le2), pylookup_mem _ _ _ hlk2, rfl⟩
            have hc2len : 1 ≤ c2.length := by
              cases c2 with
              | nil => exact absurd rfl hc2ne
              | cons a t => simp
            have hflen : 1 ≤ ((c2 :: rest).flatten).length := by
              simp only [List.flatten_cons, List.length_append]
              omega
            have hnle : ¬ (pre ++ (c ++ (c2 :: rest).flatten)).length
                ≤ pre.length + c.length := by
              simp only [List.length_append]
              omega
            rw [if_neg hnle]
            have hsl := pyslice_at pre c ((c2 :: rest).flatten) c.length (le_refl _)
            rw [List.take_length] at hsl
            rw [hsl, hlk]
            have hrec := scan_concat (c2 :: rest) (le2 :: letts'') f (pre ++ c) (acc ++ le)
              e2c hgb (List.Forall₂.cons hlk2 hf'') (by simpa using hfuel)
            simp only [List.length_append] at hrec
            rw [show pre ++ c ++ (c2 :: rest).flatten
                = pre ++ (c ++ (c2 :: rest).flatten) by simp] at hrec
            show scanOuter (pre ++ (c ++ (c2 :: rest).flatten)) e2c
                (pre.length + c.length) (acc ++ le) f
              = some (acc ++ (le :: le2 :: letts'').dropLast.flatten)
            rw [hrec, List.dropLast_cons₂]
            simp

theorem padCount_sound : ∀ (fuel : Nat) (b target : List Char) (k : Nat),
    padCount b target fuel = some k → List.replicate k '0' ++ b = target
  | 0, b, target, k, h => by
    simp only [padCount] at h
    split at h
    · case isTrue ht =>
      simp only [Option.some.injEq] at h
      subst h
      simpa using ht
    · exact absurd h (by simp)
  | fuel + 1, b, target, k, h => by
    simp only [padCount] at h
    split at h
    · case isTrue ht =>
      simp only [Option.some.injEq] at h
      subst h
      simpa using ht
    · cases hp : padCount ('0' :: b) target fuel with
      | none => rw [hp] at h; exact absurd h (by simp)
      | some k' =>
        rw [hp] at h
        simp only [Option.map_some', Option.some.injEq] at h
        subst h
        have ih := padCount_sound fuel ('0' :: b) target k' hp
        rw [← ih, List.replicate_succ']
        simp

/-! ### Invariants of the initial heap, and glue lemmas -/

theorem initialHeap_goodT (s : List Char) : ∀ t ∈ initialHeap s, goodT t := by
  intro t ht
  have hmem := (initialHeap_perm s).mem_iff.mp ht
  obtain ⟨p, hp, rfl⟩ := List.mem_map.mp hmem
  exact ⟨rfl, make_dict_pos s p hp⟩

theorem flatten_singletons : ∀ (l : List (Char × Nat)),
    (l.map (fun p => ([p.1] : List Char))).flatten = l.map Prod.fst
  | [] => rfl
  | p :: rest => by
    simp [flatten_singletons rest]

theorem initialHeap_letters (s : List Char) :
    List.Perm ((initialHeap s).map TreeNode.letter).flatten ((make_dict s).map Prod.fst) := by
  have hm := ((initialHeap_perm s).map TreeNode.letter).flatten
  rw [List.map_map] at hm
  have heq : ((make_dict s).map (TreeNode.letter ∘ fun p => TreeNode.node [p.1] p.2 none none))
      = (make_dict s).map (fun p => ([p.1] : List Char)) := by
    simp [Function.comp]
  rw [heq, flatten_singletons] at hm
  exact hm

theorem initialHeap_sum (s : List Char) :
    ((initialHeap s).map TreeNode.freq).sum = s.length := by
  have hm := ((initialHeap_perm s).map TreeNode.freq).sum_eq
  rw [List.map_map] at hm
  have heq : ((make_dict s).map (TreeNode.freq ∘ fun p => TreeNode.node [p.1] p.2 none none))
      = (make_dict s).map Prod.snd := by
    simp [Function.comp]
  rw [heq, make_dict_sum] at hm
  exact hm

theorem goodT_freqSums : ∀ (t : TreeNode), goodT t → freqSums t = true
  | .node letter f none none, _ => rfl
  | .node letter f (some l) (some r), h => by
    have ihl := goodT_freqSums l h.1
    have ihr := goodT_freqSums r h.2.1
    have hf : f = l.freq + r.freq := h.2.2.1
    simp [freqSums, ihl, ihr, hf]
  | .node _ _ none (some _), h => absurd h (by simp [goodT])
  | .node _ _ (some _) none, h => absurd h (by simp [goodT])

theorem forall2_swap_lookup (c2e : List (List Char × List Char))
    (hnd : ((c2e.map (fun p => (p.2, p.1))).map Prod.fst).Nodup) :
    ∀ (s : List Char) (cs : List (List Char)),
    List.Forall₂ (fun c code => pylookup c2e [c] = some code) s cs →
    List.Forall₂ (fun code le => pylookup (c2e.map (fun p => (p.2, p.1))) code = some le)
      cs (s.map (fun c => [c]))
  | [], _, h => by cases h; exact List.Forall₂.nil
  | c :: rest, _, h => by
    match h with
    | List.Forall₂.cons hlk hf =>
      refine List.Forall₂.cons ?_ (forall2_swap_lookup c2e hnd rest _ hf)
      have hmem := pylookup_mem c2e [c] _ hlk
      have hswap : (_, [c]) ∈ c2e.map (fun p => (p.2, p.1)) :=
        List.mem_map.mpr ⟨([c], _), hmem, rfl⟩
      exact mem_pylookup _ _ _ hnd hswap

theorem dropLast_map_flatten : ∀ (s : List Char),
    ((s.map (fun c => ([c] : List Char))).dropLast).flatten = s.dropLast
  | [] => rfl
  | [c] => rfl
  | c :: c2 :: rest => by
    have ih := dropLast_map_flatten (c2 :: rest)
    simp only [List.map_cons] at ih ⊢
    simp only [List.dropLast_cons₂, List.flatten_cons]
    rw [ih]
    simp

theorem length_le_flatten : ∀ (cs : List (List Char)), (∀ c ∈ cs, c ≠ []) →
    cs.length ≤ cs.flatten.length
  | [], _ => by simp
  | c :: rest, h => by
    have ih := length_le_flatten rest (fun x hx => h x (List.mem_cons_of_mem _ hx))
    have hc : 1 ≤ c.length := by
      cases c with
      | nil => exact absurd rfl (h [] (List.mem_cons_self _ _))
      | cons a t => simp
    simp only [List.length_cons, List.flatten_cons, List.length_append]
    omega

theorem pf_imp_ne (l : List (List Char))
    (h : l.Pairwise fun a b => ¬ a <+: b ∧ ¬ b <+: a) : l.Nodup := by
  refine h.imp ?_
  intro a b hab
  intro hc
  subst hc
  exact hab.1 ⟨[], by simp⟩

theorem forall2_exists_r {α β : Type} {R : α → β → Prop} : ∀ {l1 : List α} {l2 : List β},
    List.Forall₂ R l1 l2 → ∀ a ∈ l1, ∃ b, b ∈ l2 ∧ R a b
  | [], _, h, a, ha => absurd ha (List.not_mem_nil a)
  | x :: l1, _, List.Forall₂.cons hr hf, a, ha => by
    rcases List.mem_cons.mp ha with rfl | hmem
    · exact ⟨_, List.mem_cons_self _ _, hr⟩
    · obtain ⟨b, hb, hrb⟩ := forall2_exists_r hf a hmem
      exact ⟨b, List.mem_cons_of_mem _ hb, hrb⟩

/-- The main inversion of `encode_core`: everything claims C1, C4, C7 and C10
need about a successful encode, bundled. -/
theorem encode_main (s hexS : List Char) (book : List (List Char × List Char)) (k : Nat)
    (h : encode_core s = some (hexS, book, k)) :
    ∃ (n2 : Nat) (istr : List Char),
      parseHexOpt hexS = some n2 ∧
      concatCodes s book = some istr ∧
      List.replicate k '0' ++ binDigits n2 = istr ∧
      goodBook (pyinvert book) ∧
      (∀ p ∈ book, ∀ q ∈ book, p.1 ≠ q.1 → ¬ p.2 <+: q.2 ∧ ¬ q.2 <+: p.2) ∧
      scanOuter istr (pyinvert book) 0 [] (istr.length + 1) = some s.dropLast := by
  simp only [encode_core] at h
  cases hroot : buildRoot s with
  | none => rw [hroot] at h; exact absurd h (by simp)
  | some root =>
  rw [hroot] at h
  simp only at h
  cases he2c : buildE2C (tree_dfs (some root) [] []) [] with
  | none => rw [he2c] at h; exact absurd h (by simp)
  | some e2c =>
  rw [he2c] at h
  simp only at h
  cases his : concatCodes s (pyinvert e2c) with
  | none => rw [his] at h; exact absurd h (by simp)
  | some istr =>
  rw [his] at h
  simp only at h
  cases hn : parseBin istr with
  | none => rw [hn] at h; exact absurd h (by simp)
  | some n =>
  rw [hn] at h
  simp only at h
  cases hn2 : parseHexOpt (pyhex n) with
  | none => rw [hn2] at h; exact absurd h (by simp)
  | some n2 =>
  rw [hn2] at h
  simp only at h
  cases hk : padCount (binDigits n2) istr (istr.length + 1) with
  | none => rw [hk] at h; exact absurd h (by simp)
  | some num =>
  rw [hk] at h
  simp only [Option.some.injEq, Prod.mk.injEq] at h
  obtain ⟨hhex, hbook, hnum⟩ := h
  subst hhex
  subst hbook
  subst hnum
  -- facts about the tree built by the merge loop
  have hb := buildLoop_some (initialHeap s).length (initialHeap s) s.length root
    ((make_dict s).map Prod.fst) (initialHeap_goodT s) (initialHeap_letters s)
    (initialHeap_sum s) (by simpa [buildRoot] using hroot)
  obtain ⟨hgroot, hfreq, hlperm, a, b, le, hshape⟩ := hb
  -- the leaves list
  have hdfs : tree_dfs (some root) [] [] = dfsList root [] := by
    simp [tree_dfs, dfs_eq root [] []]
  rw [hdfs] at he2c
  have he2c_eq : e2c = (dfsList root []).map (fun p => (p.2, p.1)) := by
    simpa using buildE2C_eq (dfsList root []) [] e2c he2c
  -- letters of the leaves are distinct single characters
  have hrootNodup : root.letter.Nodup :=
    (hlperm.nodup_iff).mpr (make_dict_nodup s)
  have hlf := dfsList_letters root [] hgroot
  have hflatNodup : (((dfsList root []).map Prod.fst).flatten).Nodup :=
    hlf.nodup_iff.mpr hrootNodup
  have hlen1 : ∀ p ∈ dfsList root [], p.1.length = 1 := dfsList_fst_len root [] hgroot
  have hfst_eq : (dfsList root []).map Prod.fst
      = (((dfsList root []).map Prod.fst).flatten).map (fun c => [c]) :=
    eq_map_flatten _ (by
      intro x hx
      obtain ⟨p, hp, rfl⟩ := List.mem_map.mp hx
      exact hlen1 p hp)
  have hfstNodup : ((dfsList root []).map Prod.fst).Nodup := by
    rw [hfst_eq]
    exact hflatNodup.map (fun c1 c2 hc => by simpa using hc)
  -- the codes are pairwise prefix-free, hence distinct
  have hpf := dfsList_pf root []
  have hsndNodup : ((dfsList root []).map Prod.snd).Nodup := pf_imp_ne _ hpf
  -- the written book equals the leaves list
  have hcomp : ((fun p : List Char × List Char => (p.2, p.1))
      ∘ fun p : List Char × List Char => (p.2, p.1)) = id := by
    funext p
    simp
  have hc2e : pyinvert e2c = dfsList root [] := by
    rw [he2c_eq, pyinvert_swap]
    · rw [List.map_map, hcomp, List.map_id]
    · simpa [List.map_map, Function.comp] using hfstNodup
  -- the decoder's inverted book equals `e2c`, i.e. the swapped leaves
  have heq2 : pyinvert (pyinvert e2c) = (dfsList root []).map (fun p => (p.2, p.1)) := by
    rw [hc2e, pyinvert_swap _ hsndNodup]
  have hkeys : (pyinvert (pyinvert e2c)).map Prod.fst = (dfsList root []).map Prod.snd := by
    rw [heq2]
    simp [List.map_map, Function.comp]
  have hne_codes : ∀ kk ∈ (dfsList root []).map Prod.snd, kk ≠ [] := by
    intro kk hkk
    obtain ⟨p, hp, rfl⟩ := List.mem_map.mp hkk
    rw [hshape] at hp
    have hlong := dfsList_code_long le s.length a b [] p hp
    intro hc
    rw [hc] at hlong
    simp at hlong
  have hgb : goodBook (pyinvert (pyinvert e2c)) := by
    constructor
    · rw [hkeys]; exact hne_codes
    · rw [hkeys]; exact hpf
  -- the Forall₂ between input characters and their codes
  obtain ⟨cs, hforall, hflat⟩ := concatCodes_eq s (pyinvert e2c) istr his
  rw [hc2e] at hforall
  have hnd_swap : (((dfsList root []).map (fun p => (p.2, p.1))).map Prod.fst).Nodup := by
    simpa [List.map_map, Function.comp] using hsndNodup
  have hforall' := forall2_swap_lookup (dfsList root []) hnd_swap s cs hforall
  rw [← heq2] at hforall'
  -- codewords are non-empty, so the scan fuel bound holds
  have hcs_ne : ∀ c ∈ cs, c ≠ [] := by
    intro c hc
    obtain ⟨lv, _, hlk⟩ := forall2_exists_r hforall' c hc
    have hmemk : c ∈ (pyinvert (pyinvert e2c)).map Prod.fst :=
      List.mem_map.mpr ⟨(c, lv), pylookup_mem _ _ _ hlk, rfl⟩
    exact hgb.1 c hmemk
  have hlen_cs : cs.length + 1 ≤ istr.length + 1 := by
    rw [hflat]
    have := length_le_flatten cs hcs_ne
    omega
  -- run the decode scan over the concatenated codes
  have hscan := scan_concat cs (s.map (fun c => [c])) (istr.length + 1) [] []
    (pyinvert (pyinvert e2c)) hgb hforall' hlen_cs
  simp only [List.nil_append, List.length_nil] at hscan
  rw [← hflat, dropLast_map_flatten] at hscan
  -- the num_zeros bookkeeping
  have hpad := padCount_sound (istr.length + 1) (binDigits n2) istr num hk
  -- prefix-freeness over pairs of book entries
  have hpairs : ∀ p ∈ pyinvert e2c, ∀ q ∈ pyinvert e2c, p.1 ≠ q.1 →
      ¬ p.2 <+: q.2 ∧ ¬ q.2 <+: p.2 := by
    rw [hc2e]
    have hpw : (dfsList root []).Pairwise
        (fun a b => ¬ a.2 <+: b.2 ∧ ¬ b.2 <+: a.2) := List.pairwise_map.mp hpf
    intro p hp q hq hne
    have hsymm : Symmetric
        (fun a b : List Char × List Char => ¬ a.2 <+: b.2 ∧ ¬ b.2 <+: a.2) :=
      fun x y hh => ⟨hh.2, hh.1⟩
    exact hpw.forall hsymm hp hq (fun hc => hne (by rw [hc]))
  exact ⟨n2, istr, hn2, his, hpad, hgb, hpairs, hscan⟩

/-! ### Model validation on concrete runs

These evaluations agree with runs of the Python source: `encode` on `"ab"`
pickles `("0x1", {'b': '1', 'a': '0'}, 1)` and `decode` recovers only `"a"`;
`"aabbc"` (which exercises heap ties and `_siftup`) pickles
`("0x3e", {'b': '11', 'c': '10', 'a': '0'}, 2)` and decodes to `"aabb"`. -/

theorem eval_encode_ab :
    encode_core ['a', 'b'] = some (['0', 'x', '1'], [(['b'], ['1']), (['a'], ['0'])], 1) := rfl

theorem eval_decode_ab :
    decode_core ['0', 'x', '1'] [(['b'], ['1']), (['a'], ['0'])] 1 = some ['a'] := rfl

set_option maxHeartbeats 1600000 in
theorem eval_encode_aabbc :
    encode_core ['a', 'a', 'b', 'b', 'c']
      = some (['0', 'x', '3', 'e'],
          [(['b'], ['1', '1']), (['c'], ['1', '0']), (['a'], ['0'])], 2) := rfl

theorem eval_decode_aabbc :
    decode_core ['0', 'x', '3', 'e'] [(['b'], ['1', '1']), (['c'], ['1', '0']), (['a'], ['0'])] 2
      = some ['a', 'a', 'b', 'b'] := rfl

/-! ### Lemmas for the single-distinct-symbol and empty boundary cases -/

theorem foldl_bump_replicate : ∀ (k : Nat) (c : Char) (m : Nat),
    (List.replicate k c).foldl bump [(c, m)] = [(c, m + k)]
  | 0, c, m => by simp
  | k + 1, c, m => by
    simp only [List.replicate_succ, List.foldl_cons]
    rw [show bump [(c, m)] c = [(c, m + 1)] by simp [bump]]
    rw [foldl_bump_replicate k c (m + 1)]
    have harith : m + 1 + k = m + (k + 1) := by omega
    rw [harith]

theorem make_dict_replicate (c : Char) (n : Nat) (h : 1 ≤ n) :
    make_dict (List.replicate n c) = [(c, n)] := by
  match n, h with
  | n + 1, _ =>
    simp only [make_dict, List.replicate_succ, List.foldl_cons]
    rw [show bump [] c = [(c, 1)] from rfl]
    rw [foldl_bump_replicate n c 1]
    have harith : 1 + n = n + 1 := by omega
    rw [harith]

theorem initialHeap_replicate (c : Char) (n : Nat) (h : 1 ≤ n) :
    initialHeap (List.replicate n c) = [TreeNode.node [c] n none none] := by
  simp [initialHeap, make_dict_replicate c n h, heappush_nil]

/-! ## The claims -/

/-- Claim C1 (counterexample): the round trip is NOT the identity on the
string level.  Encoding `"ab"` and decoding the result yields `"a"`, not
`"ab"`: the decode scan drops the final symbol. -/
theorem C1_cex :
    encode_core ['a', 'b'] = some (['0', 'x', '1'], [(['b'], ['1']), (['a'], ['0'])], 1) ∧
    decode_core ['0', 'x', '1'] [(['b'], ['1']), (['a'], ['0'])] 1 = some ['a'] ∧
    (['a'] : List Char) ≠ ['a', 'b'] :=
  ⟨rfl, rfl, by decide⟩

/-- Claim C1 (amended): for every input on which `encode` succeeds (i.e. with
at least two distinct symbols), decoding the encoded triple reconstructs the
input with its final symbol removed, `decode(encode(S)) == S[:-1]`; the
round trip is not byte-for-byte the identity. -/
theorem C1_roundtrip_drops_last (s hexS : List Char)
    (book : List (List Char × List Char)) (k : Nat)
    (h : encode_core s = some (hexS, book, k)) :
    decode_core hexS book k = some s.dropLast := by
  obtain ⟨n2, istr, hhex, hcc, hpad, hgb, hpairs, hscan⟩ := encode_main s hexS book k h
  simp only [decode_core, hhex]
  rw [hpad]
  exact hscan

/-- Claim C1 (witness): the amended round trip at the concrete input `"ab"`. -/
theorem C1_roundtrip_drops_last_witness :
    encode_core ['a', 'b'] = some (['0', 'x', '1'], [(['b'], ['1']), (['a'], ['0'])], 1) ∧
    decode_core ['0', 'x', '1'] [(['b'], ['1']), (['a'], ['0'])] 1
      = some (['a', 'b'].dropLast) :=
  ⟨rfl, C1_roundtrip_drops_last ['a', 'b'] _ _ _ rfl⟩

/-- Claim C2 (counterexample): the input `"aaaa"` (one distinct symbol) does
not encode to the book `{a: "0"}` with a 4-bit payload; `encode` fails (the
merge loop pops a second node from a one-element heap, an `IndexError`). -/
theorem C2_cex : encode_core ['a', 'a', 'a', 'a'] = none := rfl

/-- Claim C2 (amended): for every input consisting of one distinct symbol
repeated `n ≥ 1` times, `encode` fails with a heap-underflow error rather
than assigning a 1-bit code: there is no single-symbol special case. -/
theorem C2_single_symbol_fails (c : Char) (n : Nat) (h : 1 ≤ n) :
    encode_core (List.replicate n c) = none := by
  have hheap := initialHeap_replicate c n h
  simp only [encode_core, buildRoot, hheap]
  simp [buildLoop, heappop_single, heappop]

/-- Claim C2 (witness): the amended claim at the concrete input `"aaaa"`. -/
theorem C2_single_symbol_fails_witness :
    1 ≤ 4 ∧ encode_core (List.replicate 4 'a') = none :=
  ⟨by decide, C2_single_symbol_fails 'a' 4 (by decide)⟩

/-- Claim C3 (counterexample): feeding decode a payload whose last bits match
no code does NOT fail: with the book `{a: "0"}` and the two-bit payload
`"01"` (stored as `("0x1", 1)`), whose last bit `"1"` matches nothing,
`decode` silently returns the partial output `"a"` instead of an error. -/
theorem C3_cex : decode_core ['0', 'x', '1'] [(['a'], ['0'])] 1 = some ['a'] := rfl

/-- Claim C3 (amended): when the inner bit scan exhausts the remaining bits
without a code match (`j` reaches `len(bin_str)`), the decode loop `break`s
and returns the partial output accumulated so far — silent truncation, no
`MalformedPayload`/`DecodeError` is raised. -/
theorem C3_silent_truncation (bin acc : List Char) (e2c : List (List Char × List Char))
    (i fuel : Nat) (hi : i < bin.length)
    (hj : bin.length ≤ scanJ bin e2c i (i + 1) bin.length) :
    scanOuter bin e2c i acc (fuel + 1) = some acc := by
  simp only [scanOuter, if_pos hi]
  rw [if_pos hj]

/-- Claim C3 (witness): silent truncation at the concrete state of the
counterexample's scan (position 1 of payload `"01"`, book `{a: "0"}`). -/
theorem C3_silent_truncation_witness :
    1 < (['0', '1'] : List Char).length ∧
    (['0', '1'] : List Char).length ≤ scanJ ['0', '1'] [(['0'], ['a'])] 1 2 2 ∧
    scanOuter ['0', '1'] [(['0'], ['a'])] 1 ['a'] 1 = some ['a'] :=
  ⟨by decide, by decide,
    C3_silent_truncation ['0', '1'] ['a'] [(['0'], ['a'])] 1 0 (by decide) (by decide)⟩

/-- Claim C4: for every payload produced by a successful `encode` (an input
with at least two distinct symbols), the decode scan loop emits exactly the
original symbol sequence with its final symbol removed: the codeword ending
at the final bit position is never emitted, because the inner scan stops at
`j == len(bin_str)` before testing the last candidate and the `j >=
len(bin_str)` check then breaks out of the loop. -/
theorem C4_scan_drops_last_symbol (s hexS : List Char)
    (book : List (List Char × List Char)) (k n : Nat)
    (henc : encode_core s = some (hexS, book, k))
    (hn : parseHexOpt hexS = some n) :
    scanOuter (List.replicate k '0' ++ binDigits n) (pyinvert book) 0 []
      ((List.replicate k '0' ++ binDigits n).length + 1) = some s.dropLast := by
  obtain ⟨n2, istr, hhex, hcc, hpad, hgb, hpairs, hscan⟩ := encode_main s hexS book k henc
  rw [hhex, Option.some.injEq] at hn
  subst hn
  rw [hpad]
  exact hscan

/-- Claim C4 (witness): the scan over the payload of `encode("ab")` emits
exactly `"a"`. -/
theorem C4_scan_drops_last_symbol_witness :
    encode_core ['a', 'b'] = some (['0', 'x', '1'], [(['b'], ['1']), (['a'], ['0'])], 1) ∧
    parseHexOpt ['0', 'x', '1'] = some 1 ∧
    scanOuter (List.replicate 1 '0' ++ binDigits 1)
      (pyinvert [(['b'], ['1']), (['a'], ['0'])]) 0 []
      ((List.replicate 1 '0' ++ binDigits 1).length + 1) = some (['a', 'b'].dropLast) :=
  ⟨rfl, rfl, C4_scan_drops_last_symbol ['a', 'b'] _ _ _ _ rfl rfl⟩

/-- Claim C5 (counterexample): encoding the empty input does not short-circuit
to an empty payload and book; it fails (first `heappop` of the empty heap
raises `IndexError`). -/
theorem C5_cex : encode_core ([] : List Char) = none := rfl

/-- Claim C5 (amended): encoding a zero-length input fails — the merge loop
immediately pops from an empty heap — and produces no payload or book at
all, rather than an empty payload and empty book. -/
theorem C5_empty_input_fails : (encode_core ([] : List Char)).isSome = false := rfl

/-- Claim C6: for every input with at least two distinct symbols (so all
`make_dict` counts are positive), the source's merge-loop exit test
`parent_node.freq == len(s)` fires exactly when the queue has been emptied,
so the loop builds the same tree as the spec's "stop when one node remains"
rule, and tree building succeeds. -/
theorem C6_termination_tests_agree (s : List Char) (h2 : 2 ≤ (make_dict s).length) :
    buildLoop (initialHeap s) s.length (initialHeap s).length
      = buildLoopSpec (initialHeap s).length (initialHeap s) ∧
    (buildLoop (initialHeap s) s.length (initialHeap s).length).isSome = true := by
  refine buildLoop_eq_spec (initialHeap s).length (initialHeap s) s.length
    (initialHeap_goodT s) (initialHeap_sum s) ?_ (le_refl _)
  rw [initialHeap_length]
  exact h2

/-- Claim C6 (witness): agreement of the two termination rules on `"ab"`. -/
theorem C6_termination_tests_agree_witness :
    2 ≤ (make_dict ['a', 'b']).length ∧
    (buildLoop (initialHeap ['a', 'b']) (['a', 'b'] : List Char).length
        (initialHeap ['a', 'b']).length
      = buildLoopSpec (initialHeap ['a', 'b']).length (initialHeap ['a', 'b']) ∧
    (buildLoop (initialHeap ['a', 'b']) (['a', 'b'] : List Char).length
        (initialHeap ['a', 'b']).length).isSome = true) :=
  ⟨by decide, C6_termination_tests_agree ['a', 'b'] (by decide)⟩

/-- Claim C7: in the code book written by every successful `encode`, the
codes of distinct symbols are never prefixes of one another (hence all codes
are pairwise distinct), whatever tree the merge loop built. -/
theorem C7_prefix_free (s hexS : List Char) (book : List (List Char × List Char))
    (k : Nat) (h : encode_core s = some (hexS, book, k)) :
    ∀ p ∈ book, ∀ q ∈ book, p.1 ≠ q.1 → ¬ p.2 <+: q.2 ∧ ¬ q.2 <+: p.2 := by
  obtain ⟨n2, istr, hhex, hcc, hpad, hgb, hpairs, hscan⟩ := encode_main s hexS book k h
  exact hpairs

/-- Claim C7 (witness): the two codes in the book of `encode("ab")` are
mutually non-prefixes. -/
theorem C7_prefix_free_witness :
    encode_core ['a', 'b'] = some (['0', 'x', '1'], [(['b'], ['1']), (['a'], ['0'])], 1) ∧
    (¬ (['1'] : List Char) <+: ['0'] ∧ ¬ (['0'] : List Char) <+: ['1']) :=
  ⟨rfl, C7_prefix_free ['a', 'b'] _ _ _ rfl (['b'], ['1']) (by decide)
    (['a'], ['0']) (by decide) (by decide)⟩

/-- Claim C8: for every input string the counts in the `make_dict` frequency
table sum to the input length, and whenever the merge loop produces a root,
its stored frequency equals that same length, every internal node's
frequency being the sum of its two children's. -/
theorem C8_frequency_invariant (s : List Char) :
    ((make_dict s).map Prod.snd).sum = s.length ∧
    ∀ root, buildRoot s = some root → root.freq = s.length ∧ freqSums root = true := by
  refine ⟨make_dict_sum s, ?_⟩
  intro root hroot
  have hb := buildLoop_some (initialHeap s).length (initialHeap s) s.length root
    ((make_dict s).map Prod.fst) (initialHeap_goodT s) (initialHeap_letters s)
    (initialHeap_sum s) (by simpa [buildRoot] using hroot)
  exact ⟨hb.2.1, goodT_freqSums root hb.1⟩

/-- Claim C8 (witness): the frequency invariant at the concrete input `"ab"`
and its concrete root. -/
theorem C8_frequency_invariant_witness :
    ((make_dict ['a', 'b']).map Prod.snd).sum = (['a', 'b'] : List Char).length ∧
    buildRoot ['a', 'b'] = some (TreeNode.node ['a', 'b'] 2
      (some (TreeNode.node ['a'] 1 none none)) (some (TreeNode.node ['b'] 1 none none))) ∧
    (TreeNode.node ['a', 'b'] 2 (some (TreeNode.node ['a'] 1 none none))
      (some (TreeNode.node ['b'] 1 none none))).freq = (['a', 'b'] : List Char).length ∧
    freqSums (TreeNode.node ['a', 'b'] 2 (some (TreeNode.node ['a'] 1 none none))
      (some (TreeNode.node ['b'] 1 none none))) = true :=
  ⟨(C8_frequency_invariant ['a', 'b']).1, rfl,
    ((C8_frequency_invariant ['a', 'b']).2 _ rfl).1,
    ((C8_frequency_invariant ['a', 'b']).2 _ rfl).2⟩

/-- Claim C9: encoding is deterministic — the embedding of `encode` is a pure
function of the input (the Python heap order and dict iteration order are
themselves deterministic and are modelled exactly), so two runs on the same
input produce the identical `(hex payload, code book, zero count)` triple. -/
theorem C9_deterministic (s1 s2 : List Char) (h : s1 = s2) :
    encode_core s1 = encode_core s2 := by rw [h]

/-- Claim C9 (witness): determinism at the concrete input `"ab"`. -/
theorem C9_deterministic_witness :
    (['a', 'b'] : List Char) = ['a', 'b'] ∧
    encode_core ['a', 'b'] = encode_core ['a', 'b'] :=
  ⟨rfl, C9_deterministic ['a', 'b'] ['a', 'b'] rfl⟩

/-- Claim C10: the bit-length bookkeeping round-trips exactly: for the
concatenated code string `int_str` of every successful `encode`, parsing the
stored hex string back (as `decode` does) and prepending `num_zeros_to_add`
`'0'` characters reconstructs a bit string equal to `int_str`, neither
introducing nor dropping leading zero bits. -/
theorem C10_bit_bookkeeping_exact (s hexS : List Char)
    (book : List (List Char × List Char)) (k n : Nat) (istr : List Char)
    (henc : encode_core s = some (hexS, book, k))
    (hcc : concatCodes s book = some istr)
    (hhex : parseHexOpt hexS = some n) :
    List.replicate k '0' ++ binDigits n = istr := by
  obtain ⟨n2, istr', hhex', hcc', hpad, hgb, hpairs, hscan⟩ := encode_main s hexS book k henc
  rw [hhex', Option.some.injEq] at hhex
  subst hhex
  rw [hcc', Option.some.injEq] at hcc
  subst hcc
  exact hpad

/-- Claim C10 (witness): exact reconstruction at the concrete input `"ab"`
(`int_str = "01"`, stored as `("0x1", 1)`). -/
theorem C10_bit_bookkeeping_exact_witness :
    encode_core ['a', 'b'] = some (['0', 'x', '1'], [(['b'], ['1']), (['a'], ['0'])], 1) ∧
    concatCodes ['a', 'b'] [(['b'], ['1']), (['a'], ['0'])] = some ['0', '1'] ∧
    parseHexOpt ['0', 'x', '1'] = some 1 ∧
    List.replicate 1 '0' ++ binDigits 1 = ['0', '1'] :=
  ⟨rfl, rfl, rfl, C10_bit_bookkeeping_exact ['a', 'b'] _ _ _ _ _ rfl rfl rfl⟩
